import Mathlib

/-!
Formal model of the geometry-processing core of geodesic_sphere.py: the
dual-mesh builder (build_dual_from_object), the tangential jitter pass
(organic_jitter_dual_on_sphere) with its helpers project_to_radius and
tangent_basis, and the offset-field smoothing loop.

Modelling conventions:
- 3D vectors are triples of rationals; the idealized real-number semantics
  of the script's float arithmetic.
- The transcendental scalar functions the script takes from the math module
  and from mathutils (sqrt inside Vector.length, cos, sin, atan2, pi) are
  supplied as a ScalarOps record, so every theorem quantifies over them;
  hypotheses state the exact-square-root facts a result needs at the points
  where it needs them.  A concrete computable instantiation opsQ (exact on
  perfect squares, exact at angle 0) is used for witnesses.
- Python's random module is modelled as a seed-indexed stream of unit
  draws (random.seed + random.uniform(a,b) = a + (b-a)*u), so determinism
  in the seed is part of the model, matching the library's contract.
- bmesh meshes are vertex-position lists plus edge and face lists over
  vertex indices; bmesh.faces.new on a degenerate corner list (duplicate
  vertices, or a face with the same vertex set already present) is the
  failure case that the script swallows, modelled by addDualFace returning
  the accumulator unchanged.
- Python's list.sort(key=...) is a stable ascending sort; it is modelled
  with List.insertionSort on (key, value) pairs, which is extensionally
  the same stable ascending ordering.
-/

namespace GeodesicSphere

/-- A 3D vector with rational coordinates (idealized mathutils.Vector). -/
@[ext]
structure Vec3 where
  x : ℚ
  y : ℚ
  z : ℚ
deriving DecidableEq, Repr

def vzero : Vec3 := ⟨0, 0, 0⟩

def vadd (a b : Vec3) : Vec3 := ⟨a.x + b.x, a.y + b.y, a.z + b.z⟩

def vsub (a b : Vec3) : Vec3 := ⟨a.x - b.x, a.y - b.y, a.z - b.z⟩

def smul (c : ℚ) (a : Vec3) : Vec3 := ⟨c * a.x, c * a.y, c * a.z⟩

def dot (a b : Vec3) : ℚ := a.x * b.x + a.y * b.y + a.z * b.z

def cross (a b : Vec3) : Vec3 :=
  ⟨a.y * b.z - a.z * b.y, a.z * b.x - a.x * b.z, a.x * b.y - a.y * b.x⟩

def normSq (a : Vec3) : ℚ := dot a a

/-- The scalar functions the script uses from math/mathutils, abstracted:
sqrt underlies Vector.length and Vector.normalized; cos, sin, atan2 and pi
are used for tangent directions and angular sorting. -/
structure ScalarOps where
  sqrt : ℚ → ℚ
  cos : ℚ → ℚ
  sin : ℚ → ℚ
  atan2 : ℚ → ℚ → ℚ
  pi : ℚ

/-- Vector.length: sqrt of the squared norm. -/
def lengthV (ops : ScalarOps) (a : Vec3) : ℚ := ops.sqrt (normSq a)

/-- Vector.normalized: divides by the length; a zero-length vector is
returned unchanged as the zero vector (mathutils behaviour). -/
def normalizeV (ops : ScalarOps) (a : Vec3) : Vec3 :=
  if lengthV ops a = 0 then vzero else smul (1 / lengthV ops a) a

/-- project_to_radius from the script: zero-length positions map to the
fixed fallback (radius, 0, 0); otherwise normalize and scale by radius. -/
def project_to_radius (ops : ScalarOps) (p : Vec3) (radius : ℚ) : Vec3 :=
  if lengthV ops p = 0 then ⟨radius, 0, 0⟩ else smul radius (normalizeV ops p)

/-- tangent_basis from the script: pick the axis least aligned with n,
then two normalized cross products give the tangent frame (t, b). -/
def tangent_basis (ops : ScalarOps) (n0 : Vec3) : Vec3 × Vec3 :=
  let n := normalizeV ops n0
  let a := if |n.x| < 9 / 10 then (⟨1, 0, 0⟩ : Vec3) else ⟨0, 1, 0⟩
  let t := normalizeV ops (cross n a)
  let b := normalizeV ops (cross n t)
  (t, b)

/-- A mesh as the script sees it through bmesh: vertex positions indexed by
position in the list, undirected edges as index pairs, faces as cyclic
vertex-index lists. -/
structure Mesh where
  verts : List Vec3
  edges : List (Nat × Nat)
  faces : List (List Nat)
deriving DecidableEq, Repr

def vertPos (m : Mesh) (i : Nat) : Vec3 := m.verts.getD i vzero

/-- Indices of the neighbours of vertex i through the edge list
(nbrs = other_vert over link_edges in the script). -/
def nbrsIdx (m : Mesh) (i : Nat) : List Nat :=
  m.edges.filterMap fun e =>
    if e.1 = i then some e.2 else if e.2 = i then some e.1 else none

/-- The deterministic pseudorandom generator: random.seed(seed) determines
a stream of unit draws consumed in order. -/
structure RNG where
  unit : Nat → ℚ

/-- random.uniform(lo, hi) = lo + (hi - lo) * (next unit draw). -/
def uniformDraw (lo hi u : ℚ) : ℚ := lo + (hi - lo) * u

/-- Initial per-vertex random tangent offsets: a random angle in
[0, 2*pi), a unit direction cos(ang)*t + sin(ang)*b in the tangent plane,
normalized and scaled by a magnitude drawn in [0.2, 1.0] times strength.
Vertex i consumes draws 2*i (angle) and 2*i+1 (magnitude). -/
def initialOffsets (ops : ScalarOps) (u : Nat → ℚ) (m : Mesh) (strength : ℚ) :
    List Vec3 :=
  (List.range m.verts.length).map fun i =>
    let n := normalizeV ops (vertPos m i)
    let tb := tangent_basis ops n
    let ang := uniformDraw 0 (2 * ops.pi) (u (2 * i))
    let dirTan := vadd (smul (ops.cos ang) tb.1) (smul (ops.sin ang) tb.2)
    let mag := uniformDraw (1 / 5) 1 (u (2 * i + 1)) * strength
    smul mag (normalizeV ops dirTan)

/-- Sum of the offsets of the vertices listed in ns. -/
def sumOffsets (offs : List Vec3) (ns : List Nat) : Vec3 :=
  ns.foldl (fun acc j => vadd acc (offs.getD j vzero)) vzero

/-- mathutils Vector.lerp: a + (b - a) * t. -/
def lerpV (a b : Vec3) (t : ℚ) : Vec3 := vadd a (smul t (vsub b a))

/-- One smoothing iteration of the offset field: each vertex with
neighbours lerps its offset toward the mean of its neighbours' previous
offsets by lam; vertices without neighbours keep their offset. -/
def smoothOnce (m : Mesh) (lam : ℚ) (offs : List Vec3) : List Vec3 :=
  (List.range m.verts.length).map fun i =>
    let ns := nbrsIdx m i
    if 0 < ns.length then
      lerpV (offs.getD i vzero) (smul (1 / (ns.length : ℚ)) (sumOffsets offs ns)) lam
    else offs.getD i vzero

/-- The smoothing loop, run a fixed number of iterations. -/
def iterSmooth (m : Mesh) (lam : ℚ) : Nat → List Vec3 → List Vec3
  | 0, offs => offs
  | n + 1, offs => iterSmooth m lam n (smoothOnce m lam offs)

/-- The apply step's per-vertex offset: the smoothed offset with its
component along the vertex's local normal (the normalized position)
removed. -/
def tangentialPart (ops : ScalarOps) (p off : Vec3) : Vec3 :=
  let n := normalizeV ops p
  vsub off (smul (dot off n) n)

/-- Pre-reprojection positions: each vertex position plus the tangential
part of its smoothed offset. -/
def appliedPositions (ops : ScalarOps) (m : Mesh) (offs : List Vec3) : List Vec3 :=
  (List.range m.verts.length).map fun i =>
    vadd (vertPos m i) (tangentialPart ops (vertPos m i) (offs.getD i vzero))

/-- organic_jitter_dual_on_sphere from the script: seed the generator, draw
initial tangent offsets, smooth them max(0, smooth_iters) times, apply them
tangentially and reproject every vertex onto the sphere of the given
radius.  Only vertex positions change. -/
def organic_jitter_dual_on_sphere (ops : ScalarOps) (rngOf : Int → RNG)
    (m : Mesh) (radius strength : ℚ) (smooth_iters : Int) (lam : ℚ)
    (seed : Int) : Mesh :=
  let u := (rngOf seed).unit
  let offs0 := initialOffsets ops u m strength
  let offs := iterSmooth m lam (max 0 smooth_iters).toNat offs0
  { m with
    verts := (appliedPositions ops m offs).map fun q => project_to_radius ops q radius }

/-- Face centroid: calc_center_median, the mean of the face's vertex
positions. -/
def centroidOf (m : Mesh) (f : List Nat) : Vec3 :=
  smul (1 / (f.length : ℚ)) (f.foldl (fun acc i => vadd acc (vertPos m i)) vzero)

/-- Indices of the faces incident to vertex iv (link_faces). -/
def facesAt (m : Mesh) (iv : Nat) : List Nat :=
  (List.range m.faces.length).filter fun j => decide (iv ∈ m.faces.getD j [])

/-- Number of faces incident to a vertex; the script skips vertices where
this is below 3. -/
def valence (m : Mesh) (iv : Nat) : Nat := (facesAt m iv).length

/-- The signed angle the script assigns to incident face j around vertex
iv: direction from the vertex to the face centroid, with the normal
component projected out; if its length is below 1e-9 the angle is 0,
otherwise atan2 of the dot products with the tangent frame. -/
def vertexAngle (ops : ScalarOps) (m : Mesh) (iv j : Nat) : ℚ :=
  let n := normalizeV ops (vertPos m iv)
  let tb := tangent_basis ops n
  let c := centroidOf m (m.faces.getD j [])
  let u0 := vsub c (vertPos m iv)
  let u := vsub u0 (smul (dot u0 n) n)
  if lengthV ops u < 1 / 1000000000 then 0
  else ops.atan2 (dot (normalizeV ops u) tb.2) (dot (normalizeV ops u) tb.1)

/-- Ordering of (angle, face-index) pairs by angle, ascending. -/
def angleLE (p q : ℚ × Nat) : Prop := p.1 ≤ q.1

instance : DecidableRel angleLE := fun p q => by unfold angleLE; infer_instance

instance : IsTotal (ℚ × Nat) angleLE := ⟨fun a b => le_total a.1 b.1⟩

instance : IsTrans (ℚ × Nat) angleLE := ⟨fun _ _ _ hab hbc => le_trans hab hbc⟩

/-- The corner list of the dual face the script attempts for vertex iv:
none when fewer than 3 faces are incident (the vertex is skipped),
otherwise the incident face indices (each face index is also the index of
its dual vertex) sorted ascending by vertexAngle, stably. -/
def dualFaceVerts (ops : ScalarOps) (m : Mesh) (iv : Nat) : Option (List Nat) :=
  let linked := facesAt m iv
  if linked.length < 3 then none
  else
    let items := linked.map fun j => (vertexAngle ops m iv j, j)
    let sorted := items.insertionSort angleLE
    some (sorted.map fun p => p.2)

/-- Two corner lists describe the same bmesh face: equal length and the
same vertex set (the condition under which bmesh reports the face as
already existing). -/
def sameVertSet (g d : List Nat) : Prop :=
  g.length = d.length ∧ (∀ x ∈ g, x ∈ d) ∧ (∀ x ∈ d, x ∈ g)

instance (g d : List Nat) : Decidable (sameVertSet g d) := by
  unfold sameVertSet; infer_instance

/-- bmesh faces.new succeeds on a corner list exactly when it has no
duplicate vertices, has at least 3 corners, and no already-created face
has the same vertex set. -/
def canCreate (acc : List (List Nat)) (d : List Nat) : Prop :=
  d.Nodup ∧ 3 ≤ d.length ∧ ∀ g ∈ acc, ¬ sameVertSet g d

instance (acc : List (List Nat)) (d : List Nat) : Decidable (canCreate acc d) := by
  unfold canCreate; infer_instance

/-- The script's try faces.new / except ValueError: on success the face is
appended, on failure the accumulated face list is returned unchanged and
no error propagates. -/
def addDualFace (acc : List (List Nat)) (d : List Nat) : List (List Nat) :=
  if canCreate acc d then acc ++ [d] else acc

/-- One step of the loop over original vertices: a skipped vertex (no
corner list) leaves the face list alone, otherwise face creation is
attempted. -/
def dualFacesStep (ops : ScalarOps) (m : Mesh) (acc : List (List Nat))
    (iv : Nat) : List (List Nat) :=
  match dualFaceVerts ops m iv with
  | none => acc
  | some d => addDualFace acc d

/-- The loop over original vertices: attempt a dual face for each vertex
in index order, skipping low-valence vertices and swallowing creation
failures. -/
def dualFacesAux (ops : ScalarOps) (m : Mesh) :
    List Nat → List (List Nat) → List (List Nat)
  | [], acc => acc
  | iv :: rest, acc => dualFacesAux ops m rest (dualFacesStep ops m acc iv)

/-- Normalize an edge to an ordered index pair. -/
def undirEdge (p : Nat × Nat) : Nat × Nat := if p.1 ≤ p.2 then p else (p.2, p.1)

/-- The boundary edges of one face (consecutive corners, cyclically). -/
def faceLoopEdges (f : List Nat) : List (Nat × Nat) :=
  (f.zip (f.rotateLeft 1)).map undirEdge

/-- Collect edges without duplicates, in first-appearance order (bmesh
creates each edge once as faces are added). -/
def dedupEdges (es : List (Nat × Nat)) : List (Nat × Nat) :=
  es.foldl (fun acc e => if e ∈ acc then acc else acc ++ [e]) []

/-- build_dual_from_object from the script, on an already triangulated
mesh: one dual vertex per face at its centroid (dual vertex index = face
index), one dual face per original vertex of valence at least 3 whose
creation succeeds, and the edges those faces induce. -/
def build_dual_from_object (ops : ScalarOps) (m : Mesh) : Mesh :=
  let dfaces := dualFacesAux ops m (List.range m.verts.length) []
  { verts := m.faces.map (centroidOf m)
    edges := dedupEdges (dfaces.map faceLoopEdges).flatten
    faces := dfaces }

/-- Manifold edge condition used for the dual-count theorem: any two
distinct vertices lie together in at most two faces (for a closed
manifold triangulated mesh every edge borders exactly two faces). -/
def EdgeInAtMostTwoFaces (m : Mesh) : Prop :=
  ∀ a < m.verts.length, ∀ b < m.verts.length, a ≠ b →
    ((List.range m.faces.length).filter fun j =>
      decide (a ∈ m.faces.getD j []) && decide (b ∈ m.faces.getD j [])).length ≤ 2

instance (m : Mesh) : Decidable (EdgeInAtMostTwoFaces m) := by
  unfold EdgeInAtMostTwoFaces; infer_instance

/-! Concrete computable instantiation of the abstract scalar functions,
used to produce witnesses.  sqrtQ is the exact square root on perfect
squares of rationals (witnesses only rely on it at such points, where it
agrees with the real square root); cosQ and sinQ are truncated series,
exact at 0, the only angle the constant-zero test stream produces;
pseudoAtan2 is the standard diamond-angle surrogate, used only where no
theorem depends on atan2's values. -/

def sqrtQ (q : ℚ) : ℚ := (Nat.sqrt q.num.toNat : ℚ) / (Nat.sqrt q.den : ℚ)

def cosQ (q : ℚ) : ℚ := 1 - q ^ 2 / 2

def sinQ (q : ℚ) : ℚ := q - q ^ 3 / 6

def pseudoAtan2 (y x : ℚ) : ℚ :=
  if 0 ≤ y then
    (if 0 ≤ x then y / (x + y) else 1 - x / (y - x))
  else
    (if x < 0 then 2 + y / (x + y) else 3 + x / (x - y))

def opsQ : ScalarOps := ⟨sqrtQ, cosQ, sinQ, pseudoAtan2, 355 / 113⟩

/-- A concrete test generator family: every seed yields the all-zero unit
stream. -/
def rngQ : Int → RNG := fun _ => ⟨fun _ => 0⟩

/-- One vertex at distance 1 from the origin, no edges or faces. -/
def meshC1 : Mesh := ⟨[⟨1, 0, 0⟩], [], []⟩

/-- A regular tetrahedron (closed, manifold, triangulated). -/
def tetraMesh : Mesh :=
  ⟨[⟨1, 1, 1⟩, ⟨1, -1, -1⟩, ⟨-1, 1, -1⟩, ⟨-1, -1, 1⟩],
   [(0, 1), (0, 2), (0, 3), (1, 2), (1, 3), (2, 3)],
   [[0, 1, 2], [0, 3, 1], [0, 2, 3], [1, 3, 2]]⟩

/-- Two triangles sharing an edge: vertex 0 has only 2 incident faces. -/
def fanMesh : Mesh :=
  ⟨[⟨1, 0, 0⟩, ⟨0, 1, 0⟩, ⟨0, 0, 1⟩, ⟨0, -1, 0⟩],
   [(0, 1), (0, 2), (1, 2), (0, 3), (2, 3)],
   [[0, 1, 2], [0, 2, 3]]⟩

/-- Two vertices joined by one edge, for the smoothing witness. -/
def pairMesh : Mesh := ⟨[⟨1, 0, 0⟩, ⟨0, 1, 0⟩], [(0, 1)], []⟩

def offsPair : List Vec3 := [⟨1, 0, 0⟩, ⟨0, 1, 0⟩]

/-! Basic algebra of the vector operations. -/

theorem vadd_vzero (a : Vec3) : vadd a vzero = a := by
  simp [vadd, vzero]

theorem smul_zero_vec (a : Vec3) : smul 0 a = vzero := by
  simp [smul, vzero]

theorem smul_vzero (c : ℚ) : smul c vzero = vzero := by
  simp [smul, vzero]

theorem dot_vzero_right (a : Vec3) : dot a vzero = 0 := by
  simp [dot, vzero]

theorem vsub_vzero_vzero : vsub vzero vzero = vzero := by
  simp [vsub, vzero]

theorem lerpV_one (a b : Vec3) : lerpV a b 1 = b := by
  simp only [lerpV, vadd, smul, vsub]
  ext <;> ring

theorem lerpV_vzero (t : ℚ) : lerpV vzero vzero t = vzero := by
  simp [lerpV, vadd, smul, vsub, vzero]

theorem dot_vzero_left (a : Vec3) : dot vzero a = 0 := by
  simp [dot, vzero]

theorem tangentialPart_vzero (ops : ScalarOps) (p : Vec3) :
    tangentialPart ops p vzero = vzero := by
  simp [tangentialPart, dot_vzero_left, smul_zero_vec, vsub_vzero_vzero]

theorem getD_map_range {α : Type} (f : Nat → α) (n i : Nat) (d : α) (h : i < n) :
    ((List.range n).map f).getD i d = f i := by
  rw [List.getD_eq_getElem?_getD]
  rw [List.getElem?_eq_getElem (by simpa using h)]
  simp

theorem map_range_getD_self {α : Type} (l : List α) (d : α) :
    (List.range l.length).map (fun i => l.getD i d) = l := by
  apply List.ext_getElem
  · simp
  · intro i h1 h2
    simp only [List.getElem_map, List.getElem_range]
    rw [List.getD_eq_getElem?_getD, List.getElem?_eq_getElem h2]
    simp

/-! With strength 0 every drawn offset magnitude is 0, so the offset field
is identically zero and stays zero through smoothing; the apply step then
adds nothing, but still reprojects every vertex with project_to_radius. -/

theorem initialOffsets_strength_zero (ops : ScalarOps) (u : Nat → ℚ) (m : Mesh) :
    ∀ j, (initialOffsets ops u m 0).getD j vzero = vzero := by
  intro j
  by_cases h : j < m.verts.length
  · rw [initialOffsets, getD_map_range _ _ _ _ h]
    simp [smul, vzero]
  · apply List.getD_eq_default
    simpa [initialOffsets] using Nat.le_of_not_lt h

theorem sumOffsets_of_zero (offs : List Vec3) (ns : List Nat)
    (h : ∀ j, offs.getD j vzero = vzero) : sumOffsets offs ns = vzero := by
  suffices hgen : ∀ (l : List Nat) (acc : Vec3),
      l.foldl (fun acc j => vadd acc (offs.getD j vzero)) acc = acc by
    exact hgen ns vzero
  intro l
  induction l with
  | nil => intro acc; rfl
  | cons j t ih =>
    intro acc
    simp only [List.foldl_cons, h j, vadd_vzero]
    exact ih acc

theorem smoothOnce_of_zero (m : Mesh) (lam : ℚ) (offs : List Vec3)
    (h : ∀ j, offs.getD j vzero = vzero) :
    ∀ j, (smoothOnce m lam offs).getD j vzero = vzero := by
  intro j
  by_cases hj : j < m.verts.length
  · rw [smoothOnce, getD_map_range _ _ _ _ hj]
    simp only [h j, sumOffsets_of_zero offs _ h, smul_vzero, lerpV_vzero]
    split <;> rfl
  · apply List.getD_eq_default
    simpa [smoothOnce] using Nat.le_of_not_lt hj

theorem iterSmooth_of_zero (m : Mesh) (lam : ℚ) (n : Nat) (offs : List Vec3)
    (h : ∀ j, offs.getD j vzero = vzero) :
    ∀ j, (iterSmooth m lam n offs).getD j vzero = vzero := by
  induction n generalizing offs with
  | zero => exact fun j => h j
  | succ k ih => exact ih (smoothOnce m lam offs) (smoothOnce_of_zero m lam offs h)

theorem appliedPositions_of_zero (ops : ScalarOps) (m : Mesh) (offs : List Vec3)
    (h : ∀ j, offs.getD j vzero = vzero) :
    appliedPositions ops m offs = m.verts := by
  unfold appliedPositions
  have hcongr : ∀ i ∈ List.range m.verts.length,
      vadd (vertPos m i) (tangentialPart ops (vertPos m i) (offs.getD i vzero))
        = m.verts.getD i vzero := by
    intro i _
    rw [h i, tangentialPart_vzero, vadd_vzero]
    rfl
  rw [List.map_congr_left hcongr, map_range_getD_self]

/-- Claim C1, amended: with strength 0 the jitter offsets are identically
zero, so the pass adds no displacement, but each final vertex position is
still project_to_radius of the original position; positions therefore
equal the un-jittered dual positions only where those already lie at the
target radius. -/
theorem jitter_strength_zero_projects (ops : ScalarOps) (rngOf : Int → RNG)
    (m : Mesh) (radius : ℚ) (si : Int) (lam : ℚ) (seed : Int) :
    (organic_jitter_dual_on_sphere ops rngOf m radius 0 si lam seed).verts
      = m.verts.map fun p => project_to_radius ops p radius := by
  simp only [organic_jitter_dual_on_sphere]
  rw [appliedPositions_of_zero ops m _
    (iterSmooth_of_zero m lam _ _ (initialOffsets_strength_zero ops _ m))]

set_option maxRecDepth 100000 in
/-- Claim C1, counterexample to the claim as stated: a dual vertex at
distance 1 from the origin, jittered with strength 0 onto the sphere of
radius 2, does not keep its position — the pass reprojects it to
(2, 0, 0).  Every scalar-function application in this run (square roots
of 0 and 1, cosine and sine of 0) is at a point where opsQ is exact. -/
theorem jitter_strength_zero_not_identity :
    (organic_jitter_dual_on_sphere opsQ rngQ meshC1 2 0 10 (11 / 20) 7).verts
      ≠ meshC1.verts := by
  with_unfolding_all decide

/-- Claim C4: organic_jitter_dual_on_sphere is deterministic — the pass is
a pure function of the seeded generator stream, the mesh (topology and
positions) and the numeric parameters, so two runs with identical seed,
mesh, radius, strength, iteration count and lambda produce identical
output positions. -/
theorem jitter_deterministic (ops : ScalarOps) (rngOf : Int → RNG)
    (m1 m2 : Mesh) (r1 r2 s1 s2 : ℚ) (i1 i2 : Int) (l1 l2 : ℚ)
    (sd1 sd2 : Int) (hm : m1 = m2) (hr : r1 = r2) (hs : s1 = s2)
    (hi : i1 = i2) (hl : l1 = l2) (hsd : sd1 = sd2) :
    organic_jitter_dual_on_sphere ops rngOf m1 r1 s1 i1 l1 sd1
      = organic_jitter_dual_on_sphere ops rngOf m2 r2 s2 i2 l2 sd2 := by
  subst hm; subst hr; subst hs; subst hi; subst hl; subst hsd; rfl

/-- Witness for C4 at a concrete run. -/
theorem jitter_deterministic_witness :
    organic_jitter_dual_on_sphere opsQ rngQ meshC1 2 1 3 (1 / 2) 7
      = organic_jitter_dual_on_sphere opsQ rngQ meshC1 2 1 3 (1 / 2) 7 :=
  jitter_deterministic opsQ rngQ meshC1 meshC1 2 2 1 1 3 3 (1 / 2) (1 / 2) 7 7
    rfl rfl rfl rfl rfl rfl

/-- Claim C8: the jitter pass mutates only vertex positions — the edge
list and the face list are returned unchanged, and the vertex list keeps
its length (one position per original vertex), for every input mesh and
every parameter choice. -/
theorem jitter_topology_unchanged (ops : ScalarOps) (rngOf : Int → RNG)
    (m : Mesh) (radius strength : ℚ) (si : Int) (lam : ℚ) (seed : Int) :
    (organic_jitter_dual_on_sphere ops rngOf m radius strength si lam seed).edges
        = m.edges ∧
    (organic_jitter_dual_on_sphere ops rngOf m radius strength si lam seed).faces
        = m.faces ∧
    (organic_jitter_dual_on_sphere ops rngOf m radius strength si lam seed).verts.length
        = m.verts.length := by
  refine ⟨rfl, rfl, ?_⟩
  simp [organic_jitter_dual_on_sphere, appliedPositions]

/-- Claim C10: the smoothing iteration count is clamped with max(0, -),
so any non-positive smooth_iters runs zero smoothing iterations and the
pass behaves exactly as with smooth_iters = 0. -/
theorem jitter_nonpos_iters_eq_zero (ops : ScalarOps) (rngOf : Int → RNG)
    (m : Mesh) (radius strength lam : ℚ) (seed : Int) (si : Int)
    (h : si ≤ 0) :
    organic_jitter_dual_on_sphere ops rngOf m radius strength si lam seed
      = organic_jitter_dual_on_sphere ops rngOf m radius strength 0 lam seed := by
  simp only [organic_jitter_dual_on_sphere]
  rw [max_eq_left h]
  norm_num

/-- Witness for C10 at smooth_iters = -3. -/
theorem jitter_nonpos_iters_witness :
    organic_jitter_dual_on_sphere opsQ rngQ meshC1 2 1 (-3) (1 / 2) 7
      = organic_jitter_dual_on_sphere opsQ rngQ meshC1 2 1 0 (1 / 2) 7 :=
  jitter_nonpos_iters_eq_zero opsQ rngQ meshC1 2 1 (1 / 2) 7 (-3) (by decide)

/-- Claim C6: in one smoothing iteration with lambda = 1 the lerp of a
vertex's offset toward its neighbour mean lands exactly on the mean —
each vertex with neighbours gets the mean (sum scaled by 1/count) of its
neighbours' offsets from before the iteration, and a vertex with zero
neighbours keeps its offset unchanged. -/
theorem smoothOnce_lambda_one (m : Mesh) (offs : List Vec3) (i : Nat)
    (hi : i < m.verts.length) :
    (0 < (nbrsIdx m i).length →
      (smoothOnce m 1 offs).getD i vzero
        = smul (1 / ((nbrsIdx m i).length : ℚ)) (sumOffsets offs (nbrsIdx m i))) ∧
    ((nbrsIdx m i).length = 0 →
      (smoothOnce m 1 offs).getD i vzero = offs.getD i vzero) := by
  constructor
  · intro hpos
    rw [smoothOnce, getD_map_range _ _ _ _ hi]
    simp only [if_pos hpos, lerpV_one]
  · intro hz
    rw [smoothOnce, getD_map_range _ _ _ _ hi]
    simp [hz]

/-- Witness for C6: in a two-vertex mesh with one edge, vertex 0's offset
after one lambda = 1 iteration is the mean of its single neighbour. -/
theorem smoothOnce_lambda_one_witness :
    (smoothOnce pairMesh 1 offsPair).getD 0 vzero
      = smul (1 / ((nbrsIdx pairMesh 0).length : ℚ))
          (sumOffsets offsPair (nbrsIdx pairMesh 0)) :=
  (smoothOnce_lambda_one pairMesh offsPair 0 (by decide)).1
    (by with_unfolding_all decide)

/-! Orthogonality of the applied offset to the local normal. -/

theorem dot_vsub_left (a b c : Vec3) : dot (vsub a b) c = dot a c - dot b c := by
  simp only [dot, vsub]; ring

theorem dot_smul_left (t : ℚ) (a b : Vec3) :
    dot (smul t a) b = t * dot a b := by
  simp only [dot, smul]; ring

theorem normSq_smul (c : ℚ) (a : Vec3) : normSq (smul c a) = c * c * normSq a := by
  simp only [normSq, dot, smul]; ring

theorem dot_normalize_self (ops : ScalarOps) (p : Vec3)
    (h : ops.sqrt (normSq p) * ops.sqrt (normSq p) = normSq p)
    (hne : lengthV ops p ≠ 0) :
    dot (normalizeV ops p) (normalizeV ops p) = 1 := by
  unfold normalizeV
  rw [if_neg hne]
  have hexp : dot (smul (1 / lengthV ops p) p) (smul (1 / lengthV ops p) p)
      = 1 / (lengthV ops p * lengthV ops p) * normSq p := by
    simp only [dot, smul, normSq]; ring
  rw [hexp]
  have hlen : lengthV ops p * lengthV ops p = normSq p := h
  rw [hlen]
  have hns : normSq p ≠ 0 := by
    intro h0
    apply hne
    have : lengthV ops p * lengthV ops p = 0 := by rw [hlen, h0]
    exact mul_self_eq_zero.mp this
  field_simp

theorem tangentialPart_orthogonal (ops : ScalarOps) (p off : Vec3)
    (h : ops.sqrt (normSq p) * ops.sqrt (normSq p) = normSq p) :
    dot (tangentialPart ops p off) (normalizeV ops p) = 0 := by
  by_cases hz : lengthV ops p = 0
  · have hn : normalizeV ops p = vzero := by rw [normalizeV, if_pos hz]
    rw [tangentialPart, hn, dot_vzero_right]
  · have h1 := dot_normalize_self ops p h hz
    rw [tangentialPart, dot_vsub_left, dot_smul_left, h1]
    ring

theorem vsub_vadd_cancel (a b : Vec3) : vsub (vadd a b) a = b := by
  simp only [vsub, vadd]; ext <;> ring

/-- Claim C7: in the apply step, the offset actually added to vertex i
(the i-th applied position minus the original position) has zero dot
product with the vertex's local normal (its normalized position): the
displacement is purely tangential, for any smoothed offset field.  The
hypothesis states that the modelled square root is exact at the squared
norm of the vertex position, as the real square root is. -/
theorem applied_offset_tangential (ops : ScalarOps) (m : Mesh)
    (offs : List Vec3) (i : Nat) (hi : i < m.verts.length)
    (h : ops.sqrt (normSq (vertPos m i)) * ops.sqrt (normSq (vertPos m i))
          = normSq (vertPos m i)) :
    dot (vsub ((appliedPositions ops m offs).getD i vzero) (vertPos m i))
        (normalizeV ops (vertPos m i)) = 0 := by
  rw [appliedPositions, getD_map_range _ _ _ _ hi, vsub_vadd_cancel]
  exact tangentialPart_orthogonal ops (vertPos m i) (offs.getD i vzero) h

/-- Witness for C7 at a concrete vertex and offset. -/
theorem applied_offset_tangential_witness :
    dot (vsub ((appliedPositions opsQ pairMesh offsPair).getD 0 vzero)
          (vertPos pairMesh 0))
        (normalizeV opsQ (vertPos pairMesh 0)) = 0 :=
  applied_offset_tangential opsQ pairMesh offsPair 0 (by decide)
    (by with_unfolding_all decide)

/-- Claim C5: every vertex position the jitter pass outputs is a
project_to_radius image; any such image has magnitude equal to radius
(stated with the square-root exactness facts the real square root
satisfies); and project_to_radius maps the zero vector to the fixed
fallback (radius, 0, 0), so a zero-length position is never left
undefined. -/
theorem jitter_positions_on_sphere (ops : ScalarOps) (radius : ℚ) :
    (∀ (rngOf : Int → RNG) (m : Mesh) (strength : ℚ) (si : Int) (lam : ℚ)
        (seed : Int),
      ∀ q ∈ (organic_jitter_dual_on_sphere ops rngOf m radius strength si lam seed).verts,
        ∃ p, q = project_to_radius ops p radius) ∧
    (∀ p : Vec3, ops.sqrt (normSq p) * ops.sqrt (normSq p) = normSq p →
      ops.sqrt (radius * radius) = radius →
      lengthV ops (project_to_radius ops p radius) = radius) ∧
    (ops.sqrt 0 = 0 → project_to_radius ops vzero radius = ⟨radius, 0, 0⟩) := by
  refine ⟨?_, ?_, ?_⟩
  · intro rngOf m strength si lam seed q hq
    simp only [organic_jitter_dual_on_sphere, List.mem_map] at hq
    obtain ⟨p, _, hp⟩ := hq
    exact ⟨p, hp.symm⟩
  · intro p hp hr
    by_cases hz : lengthV ops p = 0
    · rw [project_to_radius, if_pos hz]
      have hns : normSq (⟨radius, 0, 0⟩ : Vec3) = radius * radius := by
        simp [normSq, dot]
      rw [lengthV, hns, hr]
    · rw [project_to_radius, if_neg hz, normalizeV, if_neg hz]
      have hlen : lengthV ops p * lengthV ops p = normSq p := hp
      have hns : normSq p ≠ 0 := by
        intro h0
        exact hz (mul_self_eq_zero.mp (by rw [hlen, h0]))
      have hval : normSq (smul radius (smul (1 / lengthV ops p) p))
          = radius * radius := by
        rw [normSq_smul, normSq_smul]
        rw [show 1 / lengthV ops p * (1 / lengthV ops p) * normSq p
              = normSq p / (lengthV ops p * lengthV ops p) by ring, hlen]
        field_simp
      rw [lengthV, hval, hr]
  · intro h0
    have hz : lengthV ops vzero = 0 := by
      rw [lengthV, show normSq vzero = 0 by simp [normSq, dot, vzero], h0]
    rw [project_to_radius, if_pos hz]

/-- Witness for C5: a vertex at (3, 4, 0) projected to radius 5 has length
exactly 5, and the zero vector falls back to (5, 0, 0). -/
theorem jitter_positions_on_sphere_witness :
    lengthV opsQ (project_to_radius opsQ ⟨3, 4, 0⟩ 5) = 5 ∧
    project_to_radius opsQ vzero 5 = ⟨5, 0, 0⟩ :=
  ⟨(jitter_positions_on_sphere opsQ 5).2.1 ⟨3, 4, 0⟩
      (by with_unfolding_all decide) (by with_unfolding_all decide),
   (jitter_positions_on_sphere opsQ 5).2.2 (by with_unfolding_all decide)⟩

/-! Structure of the attempted dual faces. -/

theorem facesAt_nodup (m : Mesh) (iv : Nat) : (facesAt m iv).Nodup :=
  (List.nodup_range _).filter _

theorem mem_facesAt (m : Mesh) (iv j : Nat) :
    j ∈ facesAt m iv ↔ j < m.faces.length ∧ iv ∈ m.faces.getD j [] := by
  simp [facesAt, List.mem_filter, List.mem_range]

theorem dualFaceVerts_none_iff (ops : ScalarOps) (m : Mesh) (iv : Nat) :
    dualFaceVerts ops m iv = none ↔ valence m iv < 3 := by
  rw [dualFaceVerts, valence]
  split <;> simp_all

theorem dualFaceVerts_some_parts (ops : ScalarOps) (m : Mesh) (iv : Nat)
    (L : List Nat) (h : dualFaceVerts ops m iv = some L) :
    L = (((facesAt m iv).map fun j => (vertexAngle ops m iv j, j)).insertionSort
          angleLE).map (fun p => p.2)
      ∧ 3 ≤ (facesAt m iv).length := by
  rw [dualFaceVerts] at h
  split at h
  · exact absurd h (by simp)
  · exact ⟨(Option.some_injective _ h).symm, by omega⟩

theorem dualFaceVerts_perm (ops : ScalarOps) (m : Mesh) (iv : Nat)
    (L : List Nat) (h : dualFaceVerts ops m iv = some L) :
    L.Perm (facesAt m iv) := by
  obtain ⟨hL, -⟩ := dualFaceVerts_some_parts ops m iv L h
  rw [hL]
  have h1 : ((((facesAt m iv).map fun j => (vertexAngle ops m iv j, j)).insertionSort
        angleLE).map fun p => p.2).Perm
      (((facesAt m iv).map fun j => (vertexAngle ops m iv j, j)).map fun p => p.2) :=
    (List.perm_insertionSort angleLE _).map _
  have h2 : (((facesAt m iv).map fun j => (vertexAngle ops m iv j, j)).map
      fun p => p.2) = facesAt m iv := by
    rw [List.map_map]
    exact List.map_id _
  rw [h2] at h1
  exact h1

/-- Claim C9: the dual builder never raises on degenerate local
configurations.  A vertex with fewer than 3 incident faces produces no
corner list at all (it is silently skipped), and when face creation would
fail — degenerate corner list or an already-existing face — addDualFace
returns the accumulated face list unchanged, so the failure is swallowed
and the dual face simply omitted; the builder itself is a total
function. -/
theorem dual_builder_swallows_degenerate (ops : ScalarOps) (m : Mesh) :
    (∀ iv, valence m iv < 3 → dualFaceVerts ops m iv = none) ∧
    (∀ acc d, ¬ canCreate acc d → addDualFace acc d = acc) := by
  constructor
  · intro iv h
    exact (dualFaceVerts_none_iff ops m iv).mpr h
  · intro acc d h
    rw [addDualFace, if_neg h]

/-- Witness for C9: in the two-triangle fan, vertex 0 has valence 2 and is
skipped; creating a face whose vertex set duplicates an existing face is
swallowed. -/
theorem dual_builder_swallows_degenerate_witness :
    dualFaceVerts opsQ fanMesh 0 = none ∧
    addDualFace [[0, 1, 2]] [2, 1, 0] = [[0, 1, 2]] :=
  ⟨(dual_builder_swallows_degenerate opsQ fanMesh).1 0
      (by with_unfolding_all decide),
   (dual_builder_swallows_degenerate opsQ fanMesh).2 [[0, 1, 2]] [2, 1, 0]
      (by decide)⟩

/-- Claim C3: whenever the builder produces a corner list for an original
vertex iv (which requires valence at least 3), that list is exactly the
incident faces' dual vertices — a permutation of the incident face
indices, which index the dual vertices — arranged so that the signed
angles computed by vertexAngle (atan2 of the tangent-frame dot products
of the normalized tangent-plane projection of the vertex-to-centroid
direction) are in ascending order. -/
theorem dual_face_sorted_by_angle (ops : ScalarOps) (m : Mesh) (iv : Nat)
    (L : List Nat) (h : dualFaceVerts ops m iv = some L) :
    L.Perm (facesAt m iv) ∧
    (L.map (vertexAngle ops m iv)).Sorted (· ≤ ·) := by
  refine ⟨dualFaceVerts_perm ops m iv L h, ?_⟩
  obtain ⟨hL, -⟩ := dualFaceVerts_some_parts ops m iv L h
  have hsorted : (((facesAt m iv).map fun j => (vertexAngle ops m iv j, j)).insertionSort
      angleLE).Sorted angleLE := List.sorted_insertionSort angleLE _
  have hfst : ∀ p ∈ ((facesAt m iv).map fun j =>
      (vertexAngle ops m iv j, j)).insertionSort angleLE,
      vertexAngle ops m iv p.2 = p.1 := by
    intro p hp
    have hp2 : p ∈ (facesAt m iv).map fun j => (vertexAngle ops m iv j, j) :=
      (List.perm_insertionSort angleLE _).mem_iff.mp hp
    obtain ⟨j, -, hj⟩ := List.mem_map.mp hp2
    rw [← hj]
  rw [hL, List.map_map]
  have hmapeq : (((facesAt m iv).map fun j => (vertexAngle ops m iv j, j)).insertionSort
        angleLE).map (vertexAngle ops m iv ∘ fun p => p.2)
      = (((facesAt m iv).map fun j => (vertexAngle ops m iv j, j)).insertionSort
        angleLE).map fun p => p.1 :=
    List.map_congr_left fun p hp => hfst p hp
  rw [hmapeq]
  exact List.Pairwise.map _ (fun _ _ hab => hab) hsorted

set_option maxRecDepth 100000 in
/-- Witness for C3: the corner list the builder emits for vertex 0 of the
tetrahedron. -/
theorem dual_face_sorted_by_angle_witness :
    dualFaceVerts opsQ tetraMesh 0 = some [1, 0, 2] ∧
    ([1, 0, 2] : List Nat).Perm (facesAt tetraMesh 0) ∧
    (([1, 0, 2] : List Nat).map (vertexAngle opsQ tetraMesh 0)).Sorted (· ≤ ·) :=
  ⟨by with_unfolding_all decide,
   dual_face_sorted_by_angle opsQ tetraMesh 0 [1, 0, 2]
     (by with_unfolding_all decide)⟩

/-! Counting the dual faces: under the manifold edge condition no two
vertices of valence at least 3 can share an incident-face set, so face
creation never fails and the dual has one face per such vertex. -/

theorem not_sameVertSet_of_distinct (ops : ScalarOps) (m : Mesh)
    (hman : EdgeInAtMostTwoFaces m) {iu iv : Nat}
    (hu : iu < m.verts.length) (hv : iv < m.verts.length) (hne : iu ≠ iv)
    {g d : List Nat} (hg : dualFaceVerts ops m iu = some g)
    (hd : dualFaceVerts ops m iv = some d) : ¬ sameVertSet g d := by
  rintro ⟨-, hgd, -⟩
  have pg := dualFaceVerts_perm ops m iu g hg
  have pd := dualFaceVerts_perm ops m iv d hd
  have hsub : facesAt m iu ⊆ (List.range m.faces.length).filter fun j =>
      decide (iu ∈ m.faces.getD j []) && decide (iv ∈ m.faces.getD j []) := by
    intro j hj
    have hj1 := (mem_facesAt m iu j).mp hj
    have hjg : j ∈ g := pg.mem_iff.mpr hj
    have hjd : j ∈ d := hgd j hjg
    have hj2 := (mem_facesAt m iv j).mp (pd.mem_iff.mp hjd)
    simp only [List.mem_filter, List.mem_range, Bool.and_eq_true, decide_eq_true_eq]
    exact ⟨hj1.1, hj1.2, hj2.2⟩
  have hcard := (List.subperm_of_subset (facesAt_nodup m iu) hsub).length_le
  have h3 := (dualFaceVerts_some_parts ops m iu g hg).2
  have h2 := hman iu hu iv hv hne
  omega

theorem dualFacesAux_length (ops : ScalarOps) (m : Mesh)
    (hman : EdgeInAtMostTwoFaces m) :
    ∀ (ivs : List Nat) (acc : List (List Nat)), ivs.Nodup →
      (∀ x ∈ ivs, x < m.verts.length) →
      (∀ g ∈ acc, ∃ iu, iu < m.verts.length ∧ iu ∉ ivs ∧
        dualFaceVerts ops m iu = some g) →
      (dualFacesAux ops m ivs acc).length
        = acc.length + (ivs.filter fun iv => decide (3 ≤ valence m iv)).length := by
  intro ivs
  induction ivs with
  | nil => intro acc _ _ _; simp [dualFacesAux]
  | cons iv rest ih =>
    intro acc hnd hbound hacc
    have hndr : rest.Nodup := hnd.of_cons
    have hnotmem : iv ∉ rest := (List.nodup_cons.mp hnd).1
    have hboundr : ∀ x ∈ rest, x < m.verts.length :=
      fun x hx => hbound x (List.mem_cons_of_mem iv hx)
    have hivlt : iv < m.verts.length := hbound iv (List.mem_cons_self iv rest)
    rw [dualFacesAux]
    cases hdv : dualFaceVerts ops m iv with
    | none =>
      have hval : ¬ 3 ≤ valence m iv := by
        have := (dualFaceVerts_none_iff ops m iv).mp hdv
        omega
      have hstep : dualFacesStep ops m acc iv = acc := by
        simp [dualFacesStep, hdv]
      rw [hstep, List.filter_cons, if_neg (by simpa using hval)]
      exact ih acc hndr hboundr fun g hg => by
        obtain ⟨iu, h1, h2, h3⟩ := hacc g hg
        exact ⟨iu, h1, fun hmem => h2 (List.mem_cons_of_mem iv hmem), h3⟩
    | some d =>
      have hval : 3 ≤ valence m iv := by
        by_contra hlt
        rw [(dualFaceVerts_none_iff ops m iv).mpr (by omega)] at hdv
        exact Option.noConfusion hdv
      have hperm := dualFaceVerts_perm ops m iv d hdv
      have hcan : canCreate acc d := by
        refine ⟨hperm.nodup_iff.mpr (facesAt_nodup m iv), ?_, ?_⟩
        · rw [hperm.length_eq]
          exact (dualFaceVerts_some_parts ops m iv d hdv).2
        · intro g hg
          obtain ⟨iu, h1, h2, h3⟩ := hacc g hg
          have hne : iu ≠ iv := fun he => h2 (he ▸ List.mem_cons_self iv rest)
          exact not_sameVertSet_of_distinct ops m hman h1 hivlt hne h3 hdv
      have hstep : dualFacesStep ops m acc iv = acc ++ [d] := by
        simp only [dualFacesStep, hdv]
        rw [addDualFace, if_pos hcan]
      rw [hstep, List.filter_cons, if_pos (by simpa using hval)]
      rw [ih (acc ++ [d]) hndr hboundr ?hinv]
      · simp only [List.length_append, List.length_cons, List.length]
        omega
      case hinv =>
        intro g hg
        rcases List.mem_append.mp hg with hga | hgd
        · obtain ⟨iu, h1, h2, h3⟩ := hacc g hga
          exact ⟨iu, h1, fun hmem => h2 (List.mem_cons_of_mem iv hmem), h3⟩
        · have : g = d := by simpa using hgd
          exact ⟨iv, hivlt, hnotmem, this ▸ hdv⟩

/-- Claim C2: on a triangulated mesh satisfying the manifold edge
condition (each vertex pair shared by at most two faces, as in any
closed manifold triangulation), the dual has exactly one vertex per
input face — the centroid — and exactly one face per original vertex of
valence at least 3: no creation attempt ever fails, because corner lists
are duplicate-free and no two vertices share an incident-face set. -/
theorem dual_counts (ops : ScalarOps) (m : Mesh)
    (htri : ∀ f ∈ m.faces, f.length = 3) (hman : EdgeInAtMostTwoFaces m) :
    (build_dual_from_object ops m).verts.length = m.faces.length ∧
    (build_dual_from_object ops m).faces.length
      = ((List.range m.verts.length).filter fun iv =>
          decide (3 ≤ valence m iv)).length := by
  constructor
  · simp [build_dual_from_object]
  · simp only [build_dual_from_object]
    rw [dualFacesAux_length ops m hman (List.range m.verts.length) []
      (List.nodup_range _) (fun x hx => List.mem_range.mp hx) (by simp)]
    simp

/-- Witness for C2: the tetrahedron (closed, manifold, triangulated) has
4 faces and 4 vertices, all of valence 3, so its dual has 4 vertices and
4 faces. -/
theorem dual_counts_witness :
    (build_dual_from_object opsQ tetraMesh).verts.length = tetraMesh.faces.length ∧
    (build_dual_from_object opsQ tetraMesh).faces.length
      = ((List.range tetraMesh.verts.length).filter fun iv =>
          decide (3 ≤ valence tetraMesh iv)).length :=
  dual_counts opsQ tetraMesh (by decide) (by decide)

end GeodesicSphere
